import Mathlib

/-!
Verification of the promptdock prompt-metadata parser, prompt-spec resolution
logic and version utilities, as implemented in `src/commands/list.ts`,
`src/commands/edit.ts` and the delete command.  The TypeScript functions are
shallowly embedded as executable Lean definitions over `List Char` / `String`,
modelling the relevant JavaScript semantics (`String.prototype.split`,
`parseInt`, `Number`, `JSON.parse`, the frontmatter regex, truthiness and
stable `Array.prototype.sort`) explicitly.
-/

namespace Promptdock

/-- The character class recognised by the JavaScript regex `\s` and by
`String.prototype.trim`: the ASCII whitespace characters together with
NBSP, the Ogham space mark, the U+2000-U+200A spaces, the line and paragraph
separators, the narrow no-break space, the medium mathematical space, the
ideographic space and the byte-order mark. -/
def jsWhitespace (c : Char) : Bool :=
  c = ' ' || c = '\t' || c = '\n' || c = '\r' || c = '\x0b' || c = '\x0c' ||
  c = '\u00A0' || c = '\u1680' || (0x2000 ≤ c.toNat ∧ c.toNat ≤ 0x200A) ||
  c = '\u2028' || c = '\u2029' || c = '\u202F' || c = '\u205F' || c = '\u3000' ||
  c = '\uFEFF'

/-- A JavaScript LineTerminator: the characters the regex `.` refuses to
match. -/
def jsLineTerminator (c : Char) : Bool :=
  c = '\n' || c = '\x0d' || c = '\u2028' || c = '\u2029'

/-- Model of `String.prototype.split` with a single-character separator:
`"".split(sep)` is `[""]`, separators at the ends produce empty segments. -/
def splitOnChar (sep : Char) : List Char → List (List Char)
  | [] => [[]]
  | c :: cs =>
    match splitOnChar sep cs with
    | [] => [[c]]
    | h :: t => if c = sep then [] :: h :: t else (c :: h) :: t

/-- Model of `String.prototype.trim` (drop leading and trailing whitespace). -/
def jsTrim (cs : List Char) : List Char :=
  ((cs.dropWhile jsWhitespace).reverse.dropWhile jsWhitespace).reverse

/-- A JavaScript `\w` word character: ASCII letter, digit or underscore. -/
def isWordChar (c : Char) : Bool :=
  c.isAlpha || c.isDigit || c = '_'

/-- Digit value for radix-16 parsing. -/
def hexVal (c : Char) : Nat :=
  if c.isDigit then c.toNat - '0'.toNat
  else if 'a' ≤ c ∧ c ≤ 'f' then c.toNat - 'a'.toNat + 10
  else if 'A' ≤ c ∧ c ≤ 'F' then c.toNat - 'A'.toNat + 10
  else 0

def digitsToNat (radix : Nat) (ds : List Char) : Nat :=
  ds.foldl (fun acc c => acc * radix + hexVal c) 0

/-- Hexadecimal digit test. -/
def isHexDigitChar (c : Char) : Bool :=
  c.isDigit || ('a' ≤ c ∧ c ≤ 'f') || ('A' ≤ c ∧ c ≤ 'F')

/-- Model of the JavaScript built-in `parseInt(s)` (radix argument omitted, as
at the call sites): leading whitespace is skipped, an optional sign is read, a
`0x`/`0X` prefix selects radix 16, then the longest prefix of digits of the
radix is converted; no digits means `NaN`, modelled as `none`. -/
def jsParseInt (s : List Char) : Option Int :=
  let cs := s.dropWhile jsWhitespace
  let (neg, cs1) :=
    match cs with
    | '-' :: t => (true, t)
    | '+' :: t => (false, t)
    | t => (false, t)
  let (radix, cs2) :=
    match cs1 with
    | '0' :: 'x' :: t => (16, t)
    | '0' :: 'X' :: t => (16, t)
    | t => (10, t)
  let digits := cs2.takeWhile (fun c => if radix = 16 then isHexDigitChar c else c.isDigit)
  if digits.isEmpty then none
  else some ((if neg then -1 else 1) * (digitsToNat radix digits : Int))

/-- Model of `x || 0` applied to a `parseInt` result: `NaN` becomes `0`
(`some 0` and `some (-0)` also give `0`, which coincides with the stored
value). -/
def jsOr0 : Option Int → Int
  | none => 0
  | some v => v

/-- Result shape of `parseVersion` in `list.ts` / `edit.ts`. -/
structure ParsedVersion where
  major : Int
  minor : Int
  patch : Int
deriving Repr, DecidableEq

/-- Embedding of `parseVersion` (`list.ts` lines 106-113, `edit.ts` lines
138-145): split on a dot, map each segment through `parseInt(n) || 0`, then
read the first three entries with `parts[i] || 0` (an absent entry, being
`undefined`, is falsy and yields `0`; a stored `0` also yields `0`, so the
read is `getD i 0`). -/
def parseVersion (version : String) : ParsedVersion :=
  let parts := (splitOnChar '.' version.data).map (fun n => jsOr0 (jsParseInt n))
  { major := parts.getD 0 0, minor := parts.getD 1 0, patch := parts.getD 2 0 }

/-- The three bump kinds accepted by `bumpVersion`; the TypeScript parameter
type is the union `'major' | 'minor' | 'patch'`, so the `default` switch case
in the source is unreachable. -/
inductive BumpKind where
  | major
  | minor
  | patch
deriving Repr, DecidableEq

/-- A JavaScript number as produced by `Number(segment)` on a dot-free
segment: either `NaN` or an integer.  Fractional literals cannot occur (the
segments come from splitting on a dot) and the exotic integer-valued forms
(exponent notation, `Infinity`) are collapsed to `NaN` in this model; none of
them occur in the claims. -/
inductive JSNum where
  | nan
  | int (n : Int)
deriving Repr, DecidableEq

/-- Model of the `Number(s)` conversion used by `bumpVersion` via
`.map(Number)`: whitespace-only strings convert to `0`, an optional sign
followed by decimal digits converts to the signed value, a `0x`/`0X`/`0o`/`0b`
prefix (no sign allowed) selects the radix, anything else is `NaN`. -/
def jsToNumber (s : List Char) : JSNum :=
  let cs := (s.dropWhile jsWhitespace).reverse.dropWhile jsWhitespace |>.reverse
  match cs with
  | [] => .int 0
  | _ =>
    let (neg, cs1) :=
      match cs with
      | '-' :: t => (true, t)
      | '+' :: t => (false, t)
      | t => (false, t)
    match cs1 with
    | '0' :: 'x' :: t => if neg = false ∧ t ≠ [] ∧ t.all isHexDigitChar then .int (digitsToNat 16 t) else .nan
    | '0' :: 'X' :: t => if neg = false ∧ t ≠ [] ∧ t.all isHexDigitChar then .int (digitsToNat 16 t) else .nan
    | '0' :: 'o' :: t => if neg = false ∧ t ≠ [] ∧ t.all (fun c => '0' ≤ c ∧ c ≤ '7') then .int (digitsToNat 8 t) else .nan
    | '0' :: 'b' :: t => if neg = false ∧ t ≠ [] ∧ t.all (fun c => c = '0' ∨ c = '1') then .int (digitsToNat 2 t) else .nan
    | t =>
      if t ≠ [] ∧ t.all Char.isDigit then .int ((if neg then -1 else 1) * (digitsToNat 10 t : Int))
      else .nan

def jsAdd1 : JSNum → JSNum
  | .nan => .nan
  | .int n => .int (n + 1)

/-- Template-literal stringification of a `JSNum` (`NaN` prints as `NaN`,
integers in decimal with a leading minus when negative). -/
def jsNumToString : JSNum → String
  | .nan => "NaN"
  | .int n => toString n

/-- Embedding of `bumpVersion` (`edit.ts` lines 147-165): split the current
version on a dot and convert every segment with `Number`; when the number of
segments differs from three return the literal `1.0.0`; otherwise rebuild the
string from the three numbers with the requested component incremented (the
TypeScript `default` case is unreachable for the union parameter type). -/
def bumpVersion (currentVersion : String) (bumpType : BumpKind) : String :=
  let parts := (splitOnChar '.' currentVersion.data).map jsToNumber
  if parts.length ≠ 3 then "1.0.0"
  else
    let major := parts.getD 0 .nan
    let minor := parts.getD 1 .nan
    let patch := parts.getD 2 .nan
    match bumpType with
    | .major => jsNumToString (jsAdd1 major) ++ ".0.0"
    | .minor => jsNumToString major ++ "." ++ jsNumToString (jsAdd1 minor) ++ ".0"
    | .patch => jsNumToString major ++ "." ++ jsNumToString minor ++ "." ++ jsNumToString (jsAdd1 patch)

/-- A JSON value as produced by `JSON.parse`.  Numbers keep their literal
parts (sign, integer digits, fraction digits, exponent) since no call site
does arithmetic on them; only truthiness (zero-ness) is ever observed. -/
inductive Json where
  | null
  | bool (b : Bool)
  | num (neg : Bool) (intPart : List Char) (fracPart : List Char) (expNeg : Bool) (expPart : List Char)
  | str (s : String)
  | arr (elems : List Json)
  | obj (fields : List (String × Json))
deriving Repr

/-- JSON insignificant whitespace. -/
def jsonWs (c : Char) : Bool :=
  c = ' ' || c = '\t' || c = '\n' || c = '\r'

def skipWs (cs : List Char) : List Char :=
  cs.dropWhile jsonWs

/-- Decode a single-character JSON escape (the character after the
backslash); `\u` is handled separately. -/
def jsonEscChar (e : Char) : Option Char :=
  if e = '"' then some '"'
  else if e = '\\' then some '\\'
  else if e = '/' then some '/'
  else if e = 'b' then some '\x08'
  else if e = 'f' then some '\x0c'
  else if e = 'n' then some '\n'
  else if e = 'r' then some '\x0d'
  else if e = 't' then some '\t'
  else none

/-- Parse the remainder of a JSON string literal (the opening quote already
consumed): ordinary characters must not be raw control characters, the
standard escapes and `\uXXXX` are decoded.  Fuel-indexed (each step consumes
at least one character, so `length + 1` always suffices). -/
def jsonStrGo : Nat → List Char → Option (List Char × List Char)
  | 0, _ => none
  | fuel + 1, cs =>
    match cs with
    | [] => none
    | c :: rest =>
      if c = '"' then some ([], rest)
      else if c = '\\' then
        match rest with
        | [] => none
        | e :: r2 =>
          match jsonEscChar e with
          | some d => (jsonStrGo fuel r2).map (fun (s, t) => (d :: s, t))
          | none =>
            if e = 'u' then
              match r2 with
              | h1 :: h2 :: h3 :: h4 :: r =>
                if isHexDigitChar h1 ∧ isHexDigitChar h2 ∧ isHexDigitChar h3 ∧ isHexDigitChar h4 then
                  (jsonStrGo fuel r).map
                    (fun (s, t) => (Char.ofNat (digitsToNat 16 [h1, h2, h3, h4]) :: s, t))
                else none
              | _ => none
            else none
      else if c.toNat < 0x20 then none
      else (jsonStrGo fuel rest).map (fun (s, t) => (c :: s, t))

def jsonStrChars (cs : List Char) : Option (List Char × List Char) :=
  jsonStrGo (cs.length + 1) cs

/-- Parse the exponent part of a JSON number (after the `e`/`E`). -/
def jsonNumExp (neg : Bool) (intPart fracPart t : List Char) : Option (Json × List Char) :=
  let (eneg, t1) := match t with | '-' :: u => (true, u) | '+' :: u => (false, u) | u => (false, u)
  let d := t1.takeWhile Char.isDigit
  if d.isEmpty then none
  else some (.num neg intPart fracPart eneg d, t1.dropWhile Char.isDigit)

/-- Parse a JSON number literal: optional minus, `0` or a nonzero-led digit
run, optional fraction, optional exponent. -/
def jsonNumLit (cs : List Char) : Option (Json × List Char) :=
  let (neg, cs1) := match cs with | '-' :: t => (true, t) | t => (false, t)
  let ip : Option (List Char × List Char) :=
    match cs1 with
    | '0' :: t => some (['0'], t)
    | c :: t => if c.isDigit then some (c :: t.takeWhile Char.isDigit, t.dropWhile Char.isDigit) else none
    | [] => none
  match ip with
  | none => none
  | some (intPart, rest1) =>
    let (fracPart, rest2) :=
      match rest1 with
      | '.' :: t =>
        let d := t.takeWhile Char.isDigit
        if d.isEmpty then ([], rest1) else (d, t.dropWhile Char.isDigit)
      | _ => ([], rest1)
    -- a dot not followed by a digit makes the whole literal invalid
    if fracPart.isEmpty ∧ rest2.head? = some '.' then none
    else
      match rest2 with
      | 'e' :: t => jsonNumExp neg intPart fracPart t
      | 'E' :: t => jsonNumExp neg intPart fracPart t
      | _ => some (.num neg intPart fracPart false [], rest2)

/-- Loop over the elements of a non-empty JSON array (the value parser for one
nesting level below is passed in as `pv`), up to and including the closing
bracket.  The loop fuel only has to cover the number of elements; each
iteration consumes at least one input character. -/
def jsonElemsGo (pv : List Char → Option (Json × List Char)) :
    Nat → List Char → Option (List Json × List Char)
  | 0, _ => none
  | f + 1, cs =>
    (pv cs).bind (fun (v, rest) =>
      match skipWs rest with
      | ',' :: r2 => (jsonElemsGo pv f r2).map (fun (es, t) => (v :: es, t))
      | ']' :: r2 => some ([v], r2)
      | _ => none)

/-- Loop over the members of a non-empty JSON object, analogous to
`jsonElemsGo`. -/
def jsonMembersGo (pv : List Char → Option (Json × List Char)) :
    Nat → List Char → Option (List (String × Json) × List Char)
  | 0, _ => none
  | f + 1, cs =>
    match skipWs cs with
    | '"' :: r =>
      (jsonStrChars r).bind (fun (k, rest) =>
        match skipWs rest with
        | ':' :: r2 =>
          (pv r2).bind (fun (v, rest2) =>
            match skipWs rest2 with
            | ',' :: r3 => (jsonMembersGo pv f r3).map (fun (fs, t) => ((String.mk k, v) :: fs, t))
            | '}' :: r3 => some ([(String.mk k, v)], r3)
            | _ => none)
        | _ => none)
    | _ => none

/-- Dispatch on one JSON value whose leading whitespace is already removed;
`pv` parses the values one container level below. -/
def jsonValCore (pv : List Char → Option (Json × List Char)) :
    List Char → Option (Json × List Char)
  | 'n' :: 'u' :: 'l' :: 'l' :: r => some (.null, r)
  | 't' :: 'r' :: 'u' :: 'e' :: r => some (.bool true, r)
  | 'f' :: 'a' :: 'l' :: 's' :: 'e' :: r => some (.bool false, r)
  | '"' :: r => (jsonStrChars r).map (fun (s, t) => (.str (String.mk s), t))
  | '[' :: r =>
    (match skipWs r with
     | ']' :: r2 => some (.arr [], r2)
     | r2 => (jsonElemsGo pv (r2.length + 1) r2).map (fun (es, t) => (.arr es, t)))
  | '{' :: r =>
    (match skipWs r with
     | '}' :: r2 => some (.obj [], r2)
     | r2 => (jsonMembersGo pv (r2.length + 1) r2).map (fun (fs, t) => (.obj fs, t)))
  | cs1 => jsonNumLit cs1

/-- Parse one JSON value.  The fuel bounds the container nesting depth; it
decreases by one on each nested container, so `length + 1` always suffices. -/
def jsonVal : Nat → List Char → Option (Json × List Char)
  | 0, _ => none
  | fuel + 1, cs => jsonValCore (jsonVal fuel) (skipWs cs)

/-- Model of `JSON.parse(s)`: parse one value, then require only whitespace to
remain; a parse error (`none`) models the thrown `SyntaxError`.  The depth
fuel `length + 1` always suffices because every nesting level consumes at
least one input character, and each element loop gets fuel covering the whole
remaining input. -/
def jsonParse (s : String) : Option Json :=
  match jsonVal (s.data.length + 1) s.data with
  | some (v, rest) => if (skipWs rest).isEmpty then some v else none
  | none => none

/-- JavaScript truthiness of a parsed JSON value (a number is falsy exactly
when all its mantissa digits are zero). -/
def jsTruthy : Json → Bool
  | .null => false
  | .bool b => b
  | .num _ ip fp _ _ => !(ip.all (· = '0') && fp.all (· = '0'))
  | .str s => s != ""
  | .arr _ => true
  | .obj _ => true

/-- A value stored in the `metadata` object of `parsePromptFile`: every key
except `tags` stores the captured substring verbatim; the `tags` key stores
the result of `JSON.parse` (or `[]` when that throws). -/
inductive MetaVal where
  | str (s : String)
  | json (j : Json)
deriving Repr

/-- Model of the regex match `line.match(/^(\w+):\s*(.+)$/)`: a non-empty run
of word characters from the start of the line, a colon, then greedy `\s*` with
backtracking so that `(.+)$` still gets at least one character.  The dot does
not match a line terminator (carriage return or U+2028/U+2029; a newline
cannot remain after splitting on newlines), and every line terminator is also
whitespace, so a terminator after the first non-whitespace character makes the
whole match fail; when everything after the colon is whitespace, backtracking
leaves exactly the last character for the capture, provided it is not a line
terminator. -/
def matchKV (line : String) : Option (String × String) :=
  let cs := line.data
  let key := cs.takeWhile isWordChar
  match key, cs.dropWhile isWordChar with
  | _ :: _, ':' :: after =>
    let value := after.dropWhile jsWhitespace
    if value.isEmpty then
      match after.getLast? with
      | some c => if jsLineTerminator c then none else some (String.mk key, String.mk [c])
      | none => none
    else if value.any jsLineTerminator then none
    else some (String.mk key, String.mk value)
  | _, _ => none

/-- One iteration of the frontmatter loop (`list.ts` lines 47-61): a line that
does not match the pattern is ignored; a matching `tags` line stores the
`JSON.parse` of the raw value, with a thrown parse error caught and replaced
by the empty array; any other matching line stores the raw value verbatim.
Assignment to the object overwrites an existing key in place. -/
def setKey : List (String × MetaVal) → String → MetaVal → List (String × MetaVal)
  | [], k, v => [(k, v)]
  | (k1, v1) :: rest, k, v => if k1 = k then (k, v) :: rest else (k1, v1) :: setKey rest k v

def stepMeta (md : List (String × MetaVal)) (line : String) : List (String × MetaVal) :=
  match matchKV line with
  | none => md
  | some (k, v) =>
    if k = "tags" then
      setKey md k (.json (match jsonParse v with | some j => j | none => .arr []))
    else setKey md k (.str v)

def metaFold (fm : List String) : List (String × MetaVal) :=
  fm.foldl stepMeta []

def metaLookup (md : List (String × MetaVal)) (k : String) : Option MetaVal :=
  match md with
  | [] => none
  | (k1, v) :: rest => if k1 = k then some v else metaLookup rest k

/-- Model of `metadata.key || default` for the string-valued keys (only the
`tags` key ever stores a `json` value, so the `json` branch is unreachable for
the keys this is used with). -/
def metaStr (md : List (String × MetaVal)) (k : String) (dflt : String) : String :=
  match metaLookup md k with
  | some (.str s) => if s = "" then dflt else s
  | _ => dflt

/-- Model of `metadata.tags || []`: an absent key or a falsy parsed value
yields the empty array. -/
def metaTags (md : List (String × MetaVal)) : Json :=
  match metaLookup md "tags" with
  | some (.json j) => if jsTruthy j then j else .arr []
  | some (.str s) => if s != "" then .str s else .arr []
  | none => .arr []

/-- The `PromptInfo` record of `list.ts`/`edit.ts`/the delete command.  The
source field `namespace` is a reserved word in Lean and is called `nspace`
here; `tags` holds the runtime value produced by `JSON.parse` (a `string[]`
for well-formed files). -/
structure PromptInfo where
  name : String
  nspace : String
  version : String
  author : String
  description : String
  created : String
  tags : Json
  file : String
deriving Repr

/-- Is the trimmed line exactly the delimiter `---`? -/
def isDelim (l : String) : Bool :=
  jsTrim l.data = ['-', '-', '-']

/-- Drop lines up to and including the first delimiter line; `none` when there
is none (`startIndex === -1`). -/
def afterFirstDelim : List String → Option (List String)
  | [] => none
  | l :: ls => if isDelim l then some ls else afterFirstDelim ls

/-- Collect lines strictly before the next delimiter line; `none` when there
is none (`endIndex === -1`). -/
def takeUntilDelim : List String → Option (List String)
  | [] => none
  | l :: ls => if isDelim l then some [] else (takeUntilDelim ls).map (l :: ·)

/-- Embedding of `parsePromptFile` (`list.ts` lines 19-76) with the file read
already performed: split the text on newlines, locate the first two delimiter
lines, fold the key-value pattern over the lines strictly between them and
build the record with its default sentinels.  A total function of the text:
the only failure is the absence of two delimiter lines. -/
def parsePromptText (filePath : String) (content : String) : Option PromptInfo :=
  let lines := (splitOnChar '\n' content.data).map String.mk
  match afterFirstDelim lines with
  | none => none
  | some rest =>
    match takeUntilDelim rest with
    | none => none
    | some fm =>
      let md := metaFold fm
      some
        { name := metaStr md "name" "Unknown"
          nspace := metaStr md "namespace" "Unknown"
          version := metaStr md "version" "Unknown"
          author := metaStr md "author" "Unknown"
          description := metaStr md "description" "No description"
          created := metaStr md "created" "Unknown"
          tags := metaTags md
          file := filePath }

/-- Model of `file.endsWith('.md')`. -/
def jsEndsWith (s : List Char) (suffix : List Char) : Bool :=
  suffix.isSuffixOf s

/-- An entry of the root directory as seen by `findPrompts`: a name and,
when the entry is a directory, its contained files as name/content pairs. -/
structure RootEntry where
  name : String
  node : Option (List (String × String))

/-- Embedding of `findPrompts` (`list.ts` lines 78-104): a missing or
unreadable root (`readdirSync` throwing, modelled as `none`) yields the empty
list via the catch block; otherwise every subdirectory is a namespace
directory whose `.md` files are parsed, skipping files that parse to
`null`. -/
def findPrompts (baseDir : String) (root : Option (List RootEntry)) : List PromptInfo :=
  match root with
  | none => []
  | some entries =>
    (entries.filterMap (fun e => e.node.map (fun fs => (e.name, fs)))).flatMap
      (fun (ns, files) =>
        (files.filter (fun f => jsEndsWith f.1.data ['.', 'm', 'd'])).filterMap
          (fun (fn, content) => parsePromptText (baseDir ++ "/" ++ ns ++ "/" ++ fn) content))

/-- The parsed prompt specifier (`parsePromptSpec` result type).  The source
field `namespace` is called `nspace` here. -/
structure PromptSpec where
  nspace : Option String
  name : String
  version : Option String
deriving Repr, DecidableEq

/-- Split at the last `@` (model of `lastIndexOf`): prefer a split point in
the tail, otherwise split here. -/
def splitAtLastAmp : List Char → Option (List Char × List Char)
  | [] => none
  | c :: rest =>
    match splitAtLastAmp rest with
    | some (p, v) => some (c :: p, v)
    | none => if c = '@' then some ([], rest) else none

/-- Slash handling of `parsePromptSpec` (`edit.ts` lines 119-124): when the
path portion contains a slash, `const [namespace, name] = path.split('/')`
takes the first segment as the namespace and the second as the name,
discarding any further segments. -/
def splitPath (path : List Char) : Option String × String :=
  if path.contains '/' then
    let parts := (splitOnChar '/' path).map String.mk
    (some (parts.getD 0 ""), parts.getD 1 "")
  else (none, String.mk path)

/-- Embedding of `parsePromptSpec` (`edit.ts` lines 108-125, identical in the
delete command): locate the last `@`; everything after it is the version and
everything before it the path portion; then split the path portion on `/`. -/
def parsePromptSpec (promptArg : String) : PromptSpec :=
  let (path, version) :=
    match splitAtLastAmp promptArg.data with
    | some (p, v) => (p, some (String.mk v))
    | none => (promptArg.data, (none : Option String))
  let (ns, name) := splitPath path
  { nspace := ns, name := name, version := version }

/-- Truthiness test `!spec.version` / `!spec.namespace` on an optional string
(absent or empty means falsy). -/
def jsFalsyOpt : Option String → Bool
  | none => true
  | some s => s == ""

/-- One conjunct of the `matchingPrompts` filter: an absent or empty
constraint matches everything, otherwise the field must be strictly equal. -/
def optMatch (o : Option String) (v : String) : Bool :=
  match o with
  | none => true
  | some s => if s == "" then true else v == s

/-- The `matchingPrompts` filter predicate (`edit.ts` lines 232-237, delete
command lines 162-167). -/
def specMatches (s : PromptSpec) (p : PromptInfo) : Bool :=
  p.name == s.name && optMatch s.nspace p.nspace && optMatch s.version p.version

/-- The version comparator used by `getLatestVersion` and the list command:
major descending, then minor descending, then patch descending; the result is
the sign-carrying difference the JavaScript comparator returns. -/
def versionCmp (a b : PromptInfo) : Int :=
  let av := parseVersion a.version
  let bv := parseVersion b.version
  if av.major ≠ bv.major then bv.major - av.major
  else if av.minor ≠ bv.minor then bv.minor - av.minor
  else bv.patch - av.patch

/-- Stable insertion sort; with the consistent comparator above it produces
the same ordering as the (specified-stable) JavaScript `Array.prototype.sort`. -/
def stableInsert (le : α → α → Bool) (x : α) : List α → List α
  | [] => [x]
  | y :: ys => if le x y then x :: y :: ys else y :: stableInsert le x ys

def stableSort (le : α → α → Bool) : List α → List α
  | [] => []
  | x :: xs => stableInsert le x (stableSort le xs)

/-- Embedding of `getLatestVersion` (`edit.ts` lines 127-136): sort by the
descending-version comparator and take the first element (`undefined`, i.e.
`none`, on an empty array, which the caller then reports as not found). -/
def getLatestVersion (prompts : List PromptInfo) : Option PromptInfo :=
  (stableSort (fun a b => versionCmp a b ≤ 0) prompts).head?

/-- The outcome of the resolution logic in the `edit` command action
(`edit.ts` lines 232-283; the delete command is identical except for the
explicit-version multi-match fallthrough, which no claim concerns):
`notFound` is the `No prompt found` (or undefined-target `Prompt not found`)
error, `unique` a single resolved record, `ambiguous` the interactive
multiple-versions prompt showing all candidates, and `moreSpecific` the
`Multiple matches found` error. -/
inductive Resolution where
  | notFound
  | unique (p : PromptInfo)
  | ambiguous (ps : List PromptInfo)
  | moreSpecific
deriving Repr

/-- Embedding of the resolution branch structure of the `edit` command. -/
def resolve (all : List PromptInfo) (s : PromptSpec) : Resolution :=
  let matching := all.filter (specMatches s)
  match matching with
  | [] => .notFound
  | [p] => .unique p
  | ps =>
    if s.version = some "latest" then
      match getLatestVersion ps with
      | some p => .unique p
      | none => .notFound
    else if jsFalsyOpt s.version then .ambiguous ps
    else .moreSpecific

/-- Text of the prompt file `web/foo-1.0.0.md` used as a concrete input. -/
def fooV1Text : String :=
  "---\nname: foo\nnamespace: web\nversion: 1.0.0\nauthor: ann\ndescription: first\ncreated: 2024-01-01\ntags: [\"web\"]\n---\n\nbody one"

/-- Text of the prompt file `web/foo-2.0.0.md` used as a concrete input. -/
def fooV2Text : String :=
  "---\nname: foo\nnamespace: web\nversion: 2.0.0\nauthor: ann\ndescription: second\ncreated: 2024-02-01\ntags: [\"web\"]\n---\n\nbody two"

/-- A repository root containing `web/foo-1.0.0.md` and `web/foo-2.0.0.md`
(in this enumeration order). -/
def fooRoot : Option (List RootEntry) :=
  some [{ name := "web", node := some [("foo-1.0.0.md", fooV1Text), ("foo-2.0.0.md", fooV2Text)] }]

def fooPrompts : List PromptInfo := findPrompts "repo" fooRoot

/-- The versions of the candidate list surfaced by an `ambiguous` resolution
(empty for every other outcome). -/
def ambiguousVersions (r : Resolution) : List String :=
  match r with
  | .ambiguous ps => ps.map (fun p => p.version)
  | _ => []

/-- The version of the record of a `unique` resolution (empty string for
every other outcome). -/
def uniqueVersion (r : Resolution) : String :=
  match r with
  | .unique p => p.version
  | _ => ""

/-- The value `parts[i] || 0` of the i-th dot-segment: missing segments and
`NaN` (`parseInt` failure) give `0`, otherwise the `parseInt` value. -/
def segParse (segs : List (List Char)) (i : Nat) : Int :=
  match segs.get? i with
  | none => 0
  | some seg => jsOr0 (jsParseInt seg)

/-- The `"${tag}"` template applied to each tag by the header writer. -/
def quoteTag (t : String) : String :=
  "\"" ++ t ++ "\""

/-- Model of `Array.prototype.join(sep)`. -/
def jsJoin (sep : String) : List String → String
  | [] => ""
  | [x] => x
  | x :: xs => x ++ sep ++ jsJoin sep xs

/-- The `tagsStr` template of the edit command (`edit.ts` line 336): a
leading-newline `tags` line with the tags as a quoted, comma-joined JSON
array, or the empty string when there are no tags. -/
def tagsStr (tags : List String) : String :=
  if tags.length > 0 then "\ntags: [" ++ jsJoin ", " (tags.map quoteTag) ++ "]" else ""

/-- The `newHeader` template of the edit command (`edit.ts` lines 337-346)
followed by the edited content (line 349), with the version written from the
record itself (the command writes the bumped `newVersion` there) and the
record's runtime tags array passed as `tags`. -/
def recordText (p : PromptInfo) (tags : List String) (body : String) : String :=
  "---\nname: " ++ p.name ++ "\nnamespace: " ++ p.nspace ++ "\nversion: " ++ p.version ++
    "\nauthor: " ++ p.author ++ "\ndescription: " ++ p.description ++ "\ncreated: " ++ p.created ++
    tagsStr tags ++ "\n---\n\n" ++ body

/-- A value that survives the key-value line format: non-empty, free of the
line terminators the regex dot refuses, and not starting with a whitespace
character (which `\s*` would swallow). -/
def goodVal (s : String) : Prop :=
  s ≠ "" ∧ (∀ c ∈ s.data, jsLineTerminator c = false) ∧
    ∀ c, s.data.head? = some c → jsWhitespace c = false

/-- A tag that survives the unescaped `"${tag}"` quoting inside a key-value
line: no quote, no backslash, no control characters, and no line terminator
(a terminator would make the regex dot refuse the whole `tags` line). -/
def goodTag (t : String) : Prop :=
  ∀ c ∈ t.data, c ≠ '"' ∧ c ≠ '\\' ∧ 0x20 ≤ c.toNat ∧ jsLineTerminator c = false

/-- Join lines with newline separators (inverse image of splitting). -/
def unlines : List (List Char) → List Char
  | [] => []
  | [l] => l
  | l :: ls => l ++ '\n' :: unlines ls

/-- The characters of the comma-joined quoted tag list. -/
def quotedElems : List String → List Char
  | [] => []
  | [t] => '"' :: t.data ++ ['"']
  | t :: ts => '"' :: t.data ++ '"' :: ',' :: ' ' :: quotedElems ts

/-- The header (and trailing blank) lines the writer emits, as raw character
lists. -/
def headerLines (p : PromptInfo) (ts : List String) : List (List Char) :=
  [['-', '-', '-'],
   "name".data ++ ':' :: ' ' :: p.name.data,
   "namespace".data ++ ':' :: ' ' :: p.nspace.data,
   "version".data ++ ':' :: ' ' :: p.version.data,
   "author".data ++ ':' :: ' ' :: p.author.data,
   "description".data ++ ':' :: ' ' :: p.description.data,
   "created".data ++ ':' :: ' ' :: p.created.data] ++
  (if ts.length > 0 then ["tags".data ++ ':' :: ' ' :: '[' :: (quotedElems ts ++ [']'])] else []) ++
  [['-', '-', '-'], []]

/-! ## Claim theorems -/

/-- C1.  The claim states that a `latest` specifier ignores the version
constraint, collects all name/namespace matches and returns `Unique` of the
highest version (here `foo-2.0.0`).  The code instead keeps the version
conjunct `p.version === spec.version` in the `matchingPrompts` filter, so no
record matches the literal version `latest` and resolution reports
`No prompt found`: the dedicated `spec.version === 'latest'` branch is
reachable only when at least two records carry the literal version string
`latest`.  This theorem evaluates the embedded code on the spec's own
example: both records are present, both match by name, yet the result is
`notFound` rather than `Unique`. -/
theorem latest_specifier_is_filtered_as_literal_version :
    resolve fooPrompts (parsePromptSpec "foo@latest") = .notFound ∧
    fooPrompts.map (fun p => p.name) = ["foo", "foo"] ∧
    fooPrompts.map (fun p => p.version) = ["1.0.0", "2.0.0"] ∧
    fooPrompts.filter (specMatches (parsePromptSpec "foo@latest")) = [] :=
  ⟨rfl, rfl, rfl, rfl⟩

/-- C2 counterexample.  Resolving `foo` against a root enumerating
`web/foo-1.0.0.md` before `web/foo-2.0.0.md` surfaces both candidates, but in
enumeration order `[1.0.0, 2.0.0]`, not in the descending version order
`[2.0.0, 1.0.0]` the claim requires. -/
theorem no_version_candidates_not_version_sorted :
    ambiguousVersions (resolve fooPrompts (parsePromptSpec "foo")) = ["1.0.0", "2.0.0"] ∧
    ambiguousVersions (resolve fooPrompts (parsePromptSpec "foo")) ≠ ["2.0.0", "1.0.0"] :=
  ⟨rfl, by intro h; rw [show ambiguousVersions (resolve fooPrompts (parsePromptSpec "foo")) = ["1.0.0", "2.0.0"] from rfl] at h; simp at h⟩

/-- C2 amended.  For every specifier with a falsy (absent or empty) version,
when more than one record matches, resolution surfaces all matching
candidates to the caller — in the order the records were enumerated (the
filter order), not sorted by version. -/
theorem no_version_multi_match_surfaces_all_candidates :
    ∀ (all : List PromptInfo) (s : PromptSpec),
      jsFalsyOpt s.version = true →
      2 ≤ (all.filter (specMatches s)).length →
      resolve all s = .ambiguous (all.filter (specMatches s)) := by
  intro all s hfalsy hlen
  unfold resolve
  cases hm : all.filter (specMatches s) with
  | nil => rw [hm] at hlen; simp at hlen
  | cons p rest =>
    cases rest with
    | nil => rw [hm] at hlen; simp at hlen
    | cons q rest2 =>
      have hv : ¬ s.version = some "latest" := by
        intro h
        rw [h] at hfalsy
        simp [jsFalsyOpt] at hfalsy
      simp only [hm]
      rw [if_neg hv, if_pos hfalsy]

/-- Witness for C2 amended at the two-record root. -/
theorem no_version_multi_match_surfaces_all_candidates_w :
    resolve fooPrompts (parsePromptSpec "foo") =
      .ambiguous (fooPrompts.filter (specMatches (parsePromptSpec "foo"))) :=
  no_version_multi_match_surfaces_all_candidates fooPrompts (parsePromptSpec "foo")
    (by decide) (by decide)

/-- C3 counterexample.  `"1.2.x"` does not parse into three numeric segments,
so the claim requires the reset value `1.0.0`; the code only checks the
segment count, `Number("x")` is `NaN`, and the bump produces `1.2.NaN`. -/
theorem bump_three_segment_non_numeric_not_reset :
    bumpVersion "1.2.x" .patch = "1.2.NaN" ∧ bumpVersion "1.2.x" .patch ≠ "1.0.0" := by
  refine ⟨by decide, ?_⟩
  intro h
  rw [show bumpVersion "1.2.x" .patch = "1.2.NaN" from by decide] at h
  simp at h

/-- C3 amended.  `bump("1.2.3","patch") = "1.2.4"`,
`bump("1.2.3","minor") = "1.3.0"`, `bump("1.2.3","major") = "2.0.0"`; and for
every input version string that does not split into exactly three
dot-segments, bump returns the canonical starting version `1.0.0` instead of
bumping.  (A string with exactly three dot-segments is always bumped
arithmetically; a non-numeric segment among three is not detected and
propagates `NaN` into the result.) -/
theorem bump_examples_and_reset_on_wrong_segment_count :
    (bumpVersion "1.2.3" .patch = "1.2.4" ∧ bumpVersion "1.2.3" .minor = "1.3.0" ∧
     bumpVersion "1.2.3" .major = "2.0.0" ∧ bumpVersion "bad" .patch = "1.0.0") ∧
    ∀ (s : String) (k : BumpKind),
      (splitOnChar '.' s.data).length ≠ 3 → bumpVersion s k = "1.0.0" := by
  refine ⟨⟨by decide, by decide, by decide, by decide⟩, ?_⟩
  intro s k h
  unfold bumpVersion
  rw [if_pos]
  simpa using h

/-- Witness for C3 amended at a four-segment input. -/
theorem bump_examples_and_reset_on_wrong_segment_count_w :
    bumpVersion "1.2.3.4" .minor = "1.0.0" :=
  bump_examples_and_reset_on_wrong_segment_count.2 "1.2.3.4" .minor (by decide)

/-- C4 counterexample.  The claim says every segment is parsed as a
non-negative integer, but `parseInt("-1")` is `-1`, which is truthy, so
`parseVersion("-1.0.0")` has major component `-1 < 0`. -/
theorem parseVersion_negative_segment :
    parseVersion "-1.0.0" = { major := -1, minor := 0, patch := 0 } ∧
    (parseVersion "-1.0.0").major < 0 := by
  exact ⟨by decide, by decide⟩

/-- C4 amended.  For every string `s`, `parseVersion` splits `s` on `.` and
parses each of the first three dot-segments with JavaScript `parseInt`
semantics — so a segment with a leading minus sign yields a negative
integer — treats a missing or non-numeric (`NaN`) segment as `0` without ever
raising an error, and silently ignores any segments past the third; in
particular `parseVersion("2.5") = (2,5,0)`, `parseVersion("abc") = (0,0,0)`
and `parseVersion("1.2.3.4") = (1,2,3)`. -/
theorem parseVersion_first_three_segments :
    (parseVersion "2.5" = { major := 2, minor := 5, patch := 0 } ∧
     parseVersion "abc" = { major := 0, minor := 0, patch := 0 } ∧
     parseVersion "1.2.3.4" = { major := 1, minor := 2, patch := 3 }) ∧
    ∀ s : String,
      parseVersion s =
        { major := segParse (splitOnChar '.' s.data) 0
          minor := segParse (splitOnChar '.' s.data) 1
          patch := segParse (splitOnChar '.' s.data) 2 } := by
  refine ⟨⟨by decide, by decide, by decide⟩, ?_⟩
  intro s
  unfold parseVersion segParse
  have hgd : ∀ (l : List (List Char)) (i : Nat),
      (l.map (fun n => jsOr0 (jsParseInt n))).getD i 0 =
        match l.get? i with
        | none => 0
        | some seg => jsOr0 (jsParseInt seg) := by
    intro l i
    rw [List.getD_eq_getElem?_getD, List.getElem?_map, List.get?_eq_getElem?]
    cases h : l[i]? <;> simp [h]
  simp only [hgd]

/-- C8.  A missing or unreadable root directory (`readdirSync` throwing, the
catch block returning the empty accumulator) yields the empty record list,
and resolving any specifier against a missing or empty root is the
`notFound` outcome, not an exception (the embedding is a total function). -/
theorem missing_root_empty_and_not_found :
    (∀ baseDir : String, findPrompts baseDir none = []) ∧
    (∀ (baseDir : String) (s : PromptSpec), resolve (findPrompts baseDir none) s = .notFound) ∧
    (∀ (baseDir : String) (s : PromptSpec), resolve (findPrompts baseDir (some [])) s = .notFound) :=
  ⟨fun _ => rfl, fun _ _ => rfl, fun _ _ => rfl⟩

lemma splitAtLastAmp_none : ∀ l : List Char, '@' ∉ l → splitAtLastAmp l = none := by
  intro l h
  induction l with
  | nil => rfl
  | cons c cs ih =>
    have hc : c ≠ '@' := fun hq => h (hq ▸ List.mem_cons_self c cs)
    have hcs : '@' ∉ cs := fun hm => h (List.mem_cons_of_mem c hm)
    simp [splitAtLastAmp, ih hcs, hc]

lemma splitAtLastAmp_append : ∀ (p v : List Char), '@' ∉ v →
    splitAtLastAmp (p ++ '@' :: v) = some (p, v) := by
  intro p v hv
  induction p with
  | nil => simp [splitAtLastAmp, splitAtLastAmp_none v hv]
  | cons c cs ih => simp [splitAtLastAmp, ih]

lemma splitOnChar_ne_nil : ∀ (sep : Char) (l : List Char), splitOnChar sep l ≠ [] := by
  intro sep l
  cases l with
  | nil => simp [splitOnChar]
  | cons c cs =>
    simp only [splitOnChar]
    cases h : splitOnChar sep cs with
    | nil => simp
    | cons h2 t2 => by_cases hc : c = sep <;> simp [hc]

lemma splitOnChar_no_sep : ∀ (sep : Char) (l : List Char), sep ∉ l →
    splitOnChar sep l = [l] := by
  intro sep l h
  induction l with
  | nil => rfl
  | cons c cs ih =>
    have hc : c ≠ sep := fun hq => h (hq ▸ List.mem_cons_self c cs)
    have hcs : sep ∉ cs := fun hm => h (List.mem_cons_of_mem c hm)
    simp [splitOnChar, ih hcs, hc]

lemma splitOnChar_append_sep : ∀ (sep : Char) (a rest : List Char), sep ∉ a →
    splitOnChar sep (a ++ sep :: rest) = a :: splitOnChar sep rest := by
  intro sep a rest ha
  induction a with
  | nil =>
    simp only [List.nil_append, splitOnChar]
    cases h : splitOnChar sep rest with
    | nil => exact absurd h (splitOnChar_ne_nil sep rest)
    | cons h2 t2 => simp
  | cons c cs ih =>
    have hc : c ≠ sep := fun hq => ha (hq ▸ List.mem_cons_self c cs)
    have hcs : sep ∉ cs := fun hm => ha (List.mem_cons_of_mem c hm)
    rw [List.cons_append]
    simp only [splitOnChar, ih hcs]
    simp [hc]

lemma splitOnChar_head : ∀ (sep : Char) (l : List Char),
    (splitOnChar sep l).head? = some (l.takeWhile (fun c => c != sep)) := by
  intro sep l
  induction l with
  | nil => rfl
  | cons c cs ih =>
    simp only [splitOnChar]
    cases h : splitOnChar sep cs with
    | nil => exact absurd h (splitOnChar_ne_nil sep cs)
    | cons h2 t2 =>
      rw [h] at ih
      simp only [List.head?, Option.some_inj] at ih
      by_cases hc : c = sep
      · subst hc
        simp [List.takeWhile]
      · have hbne : (c != sep) = true := by simp [hc]
        dsimp only
        rw [if_neg hc]
        simp [List.takeWhile, ih, hbne]

/-- C5 counterexample.  The claim says that for a path portion with more than
one slash, everything after the first slash is the name, so
`parsePromptSpec("a/b/c")` would have name `b/c`; the code destructures
`path.split('/')` into its first two segments and the name is just `b`. -/
theorem parsePromptSpec_extra_slash_segments_dropped :
    parsePromptSpec "a/b/c" = { nspace := some "a", name := "b", version := none } ∧
    (parsePromptSpec "a/b/c").name ≠ "b/c" := by
  exact ⟨by decide, by decide⟩

/-- C5 amended.  For every raw specifier string, `parsePromptSpec` splits at
the last `@` character (everything after it is the version; with no `@` the
version is absent and the whole string is the path portion), and then splits
the path portion on `/`, taking the first segment as the namespace and the
second segment — the part after the first slash up to the next slash — as the
name (segments past the second are discarded); with no `/` the whole path
portion is the name and there is no namespace. -/
theorem parsePromptSpec_last_amp_then_slash :
    (∀ (p v : List Char), '@' ∉ v →
      parsePromptSpec (String.mk (p ++ '@' :: v)) =
        { nspace := (splitPath p).1, name := (splitPath p).2, version := some (String.mk v) }) ∧
    (∀ raw : List Char, '@' ∉ raw →
      parsePromptSpec (String.mk raw) =
        { nspace := (splitPath raw).1, name := (splitPath raw).2, version := none }) ∧
    (∀ path : List Char, '/' ∉ path → splitPath path = (none, String.mk path)) ∧
    (∀ (a rest : List Char), '/' ∉ a →
      splitPath (a ++ '/' :: rest) =
        (some (String.mk a), String.mk (rest.takeWhile (fun c => c != '/')))) := by
  refine ⟨?_, ?_, ?_, ?_⟩
  · intro p v hv
    unfold parsePromptSpec
    rw [show (String.mk (p ++ '@' :: v)).data = p ++ '@' :: v from rfl,
      splitAtLastAmp_append p v hv]
  · intro raw hraw
    unfold parsePromptSpec
    rw [show (String.mk raw).data = raw from rfl, splitAtLastAmp_none raw hraw]
  · intro path hpath
    unfold splitPath
    simp [hpath]
  · intro a rest ha
    unfold splitPath
    have hmem : '/' ∈ a ++ '/' :: rest := List.mem_append_right a (List.mem_cons_self _ _)
    rw [if_pos (by simp [hmem] : ((a ++ '/' :: rest).contains '/' = true))]
    rw [splitOnChar_append_sep '/' a rest ha]
    have hh := splitOnChar_head '/' rest
    cases h : splitOnChar '/' rest with
    | nil => exact absurd h (splitOnChar_ne_nil '/' rest)
    | cons h2 t2 =>
      rw [h] at hh
      simp only [List.head?, Option.some_inj] at hh
      simp [hh]

/-- Witness for C5 amended: a full specifier with namespace, name and
version, and a path portion with extra slash segments. -/
theorem parsePromptSpec_last_amp_then_slash_w :
    parsePromptSpec (String.mk ("web/foo".data ++ '@' :: "1.0.0".data)) =
      { nspace := (splitPath "web/foo".data).1, name := (splitPath "web/foo".data).2,
        version := some (String.mk "1.0.0".data) } ∧
    splitPath ("a".data ++ '/' :: "b/c".data) =
      (some (String.mk "a".data), String.mk ("b/c".data.takeWhile (fun c => c != '/'))) :=
  ⟨parsePromptSpec_last_amp_then_slash.1 "web/foo".data "1.0.0".data (by decide),
   parsePromptSpec_last_amp_then_slash.2.2.2 "a".data "b/c".data (by decide)⟩

lemma afterFirstDelim_count : ∀ (ls rest : List String),
    afterFirstDelim ls = some rest → ls.countP isDelim = rest.countP isDelim + 1 := by
  intro ls
  induction ls with
  | nil => intro rest h; exact absurd h (by simp [afterFirstDelim])
  | cons l t ih =>
    intro rest h
    by_cases hd : isDelim l
    · rw [afterFirstDelim, if_pos hd, Option.some_inj] at h
      subst h
      simp [List.countP_cons, hd]
    · rw [afterFirstDelim, if_neg hd] at h
      simp [List.countP_cons, hd, ih rest h]

lemma afterFirstDelim_zero : ∀ ls : List String,
    ls.countP isDelim = 0 → afterFirstDelim ls = none := by
  intro ls
  induction ls with
  | nil => intro _; rfl
  | cons l t ih =>
    intro h
    rw [List.countP_cons] at h
    by_cases hd : isDelim l
    · simp [hd] at h
    · rw [afterFirstDelim, if_neg hd]
      exact ih (by simpa [hd] using h)

lemma takeUntilDelim_zero : ∀ ls : List String,
    ls.countP isDelim = 0 → takeUntilDelim ls = none := by
  intro ls
  induction ls with
  | nil => intro _; rfl
  | cons l t ih =>
    intro h
    rw [List.countP_cons] at h
    by_cases hd : isDelim l
    · simp [hd] at h
    · rw [takeUntilDelim, if_neg hd, ih (by simpa [hd] using h)]
      rfl

/-- C6.  For every file path and every input text containing fewer than two
lines whose trimmed content is exactly `---`, the frontmatter parser returns
`none` (the `null` "not a prompt" result).  `parsePromptText` is a total Lean
function of the text, so it throws for no input — the only failure mode is
this `none`. -/
theorem frontmatter_requires_two_delimiters :
    ∀ (fp content : String),
      (((splitOnChar '\n' content.data).map String.mk).countP isDelim) < 2 →
      parsePromptText fp content = none := by
  intro fp content h
  cases h1 : afterFirstDelim ((splitOnChar '\n' content.data).map String.mk) with
  | none => simp [parsePromptText, h1]
  | some rest =>
    have hc := afterFirstDelim_count _ rest h1
    rw [hc] at h
    have hz : rest.countP isDelim = 0 := by omega
    simp [parsePromptText, h1, takeUntilDelim_zero rest hz]

/-- Witness for C6: a text with a single delimiter line parses to `none`. -/
theorem frontmatter_requires_two_delimiters_w :
    parsePromptText "f" "---\nname: foo\nno closing delimiter" = none :=
  frontmatter_requires_two_delimiters "f" "---\nname: foo\nno closing delimiter" (by decide)

lemma metaFold_append_one : ∀ (fm : List String) (line : String),
    metaFold (fm ++ [line]) = stepMeta (metaFold fm) line := by
  intro fm line
  simp [metaFold, List.foldl_append]

lemma metaLookup_setKey_self : ∀ (md : List (String × MetaVal)) (k : String) (v : MetaVal),
    metaLookup (setKey md k v) k = some v := by
  intro md k v
  induction md with
  | nil => simp [setKey, metaLookup]
  | cons kv rest ih =>
    by_cases hk : kv.1 = k
    · simp [setKey, hk, metaLookup]
    · cases kv with
      | mk k1 v1 =>
        simp only at hk
        simp [setKey, hk, metaLookup, ih]

/-- C7.  In the frontmatter loop, the raw value of a line whose key is `tags`
is parsed as JSON: a parse failure (the thrown `SyntaxError` being caught)
stores the empty array rather than propagating an error, a successful parse
stores the parsed value; a matching line with any other key stores the raw
value verbatim as a string.  The lookup is stated after an arbitrary prefix
of earlier lines, the last assignment winning. -/
theorem frontmatter_tags_json_other_keys_verbatim :
    ∀ (fm : List String) (line k raw : String),
      matchKV line = some (k, raw) →
      ((k = "tags" → jsonParse raw = none →
          metaLookup (metaFold (fm ++ [line])) "tags" = some (.json (.arr []))) ∧
       (∀ j, k = "tags" → jsonParse raw = some j →
          metaLookup (metaFold (fm ++ [line])) "tags" = some (.json j)) ∧
       (k ≠ "tags" → metaLookup (metaFold (fm ++ [line])) k = some (.str raw))) := by
  intro fm line k raw h
  rw [metaFold_append_one]
  refine ⟨?_, ?_, ?_⟩
  · intro hk hnone
    subst hk
    rw [stepMeta, h]
    simp only [if_pos rfl, hnone]
    exact metaLookup_setKey_self _ _ _
  · intro j hk hsome
    subst hk
    rw [stepMeta, h]
    simp only [if_pos rfl, hsome]
    exact metaLookup_setKey_self _ _ _
  · intro hk
    rw [stepMeta, h]
    simp only [if_neg hk]
    exact metaLookup_setKey_self _ _ _

/-- Witness for C7: a malformed tags value stores the empty array, and an
ordinary key stores its value verbatim, after a preceding line. -/
theorem frontmatter_tags_json_other_keys_verbatim_w :
    metaLookup (metaFold (["name: foo"] ++ ["tags: [broken"])) "tags" = some (.json (.arr [])) ∧
    metaLookup (metaFold ([] ++ ["author: ann"])) "author" = some (.str "ann") :=
  ⟨(frontmatter_tags_json_other_keys_verbatim ["name: foo"] "tags: [broken" "tags" "[broken"
      (by decide)).1 rfl rfl,
   (frontmatter_tags_json_other_keys_verbatim [] "author: ann" "author" "ann"
      (by decide)).2.2 (by decide)⟩

lemma takeWhileWord_append_colon : ∀ key : List Char, (∀ c ∈ key, isWordChar c = true) →
    (key ++ [':']).takeWhile isWordChar = key ∧ (key ++ [':']).dropWhile isWordChar = [':'] := by
  intro key h
  induction key with
  | nil => simp [List.takeWhile, List.dropWhile, isWordChar]
  | cons c cs ih =>
    have hc : isWordChar c = true := h c (List.mem_cons_self c cs)
    have hcs := ih (fun x hx => h x (List.mem_cons_of_mem c hx))
    simp [List.takeWhile, List.dropWhile, hc, hcs.1, hcs.2]

/-- C10.  Every string value the frontmatter parser stores is non-empty: the
pattern requires at least one character after the colon-and-whitespace, so a
line consisting of word characters and a colon with nothing after it fails
the pattern and is silently ignored, leaving the metadata — and hence the
record fields with their default sentinels — exactly as if the line were
absent. -/
theorem empty_value_lines_ignored :
    (∀ (line k v : String), matchKV line = some (k, v) → v ≠ "") ∧
    (∀ key : List Char, (∀ c ∈ key, isWordChar c = true) →
      matchKV (String.mk (key ++ [':'])) = none) ∧
    (∀ (fm1 fm2 : List String) (line : String), matchKV line = none →
      metaFold (fm1 ++ line :: fm2) = metaFold (fm1 ++ fm2)) := by
  refine ⟨?_, ?_, ?_⟩
  · intro line k v h
    simp only [matchKV] at h
    split at h
    · split at h
      · split at h
        · split at h
          · exact absurd h (by simp)
          · rw [Option.some_inj, Prod.ext_iff] at h
            intro hv
            rw [hv] at h
            have hd := congrArg String.data h.2
            simp at hd
        · exact absurd h (by simp)
      · split at h
        · exact absurd h (by simp)
        · rw [Option.some_inj, Prod.ext_iff] at h
          intro hv
          rw [hv] at h
          have hd := congrArg String.data h.2
          simp only [String.data] at hd
          rename_i hne _
          apply hne
          rw [hd]
          rfl
    · exact absurd h (by simp)
  · intro key h
    have hkc := takeWhileWord_append_colon key h
    cases key with
    | nil => decide
    | cons c cs =>
      simp only [matchKV]
      rw [hkc.1, hkc.2]
      simp [List.dropWhile, List.getLast?, List.isEmpty]
  · intro fm1 fm2 line h
    have hstep : ∀ md, stepMeta md line = md := by
      intro md
      rw [stepMeta, h]
    simp [metaFold, List.foldl_append, hstep]

/-- Witness for C10: a stored value is non-empty, a bare `author:` line fails
the pattern, and inserting it between two lines leaves the metadata
unchanged. -/
theorem empty_value_lines_ignored_w :
    ("x" : String) ≠ "" ∧
    matchKV (String.mk ("author".data ++ [':'])) = none ∧
    metaFold (["name: n1"] ++ "author:" :: ["version: 1.0.0"]) =
      metaFold (["name: n1"] ++ ["version: 1.0.0"]) :=
  ⟨empty_value_lines_ignored.1 "name: x" "name" "x" (by decide),
   empty_value_lines_ignored.2.1 "author".data (by decide),
   empty_value_lines_ignored.2.2 ["name: n1"] ["version: 1.0.0"] "author:" (by decide)⟩

lemma string_data_append : ∀ a b : String, (a ++ b).data = a.data ++ b.data := by
  intro a b
  cases a
  cases b
  rfl

lemma jsJoin_quote_data : ∀ ts : List String,
    (jsJoin ", " (ts.map quoteTag)).data = quotedElems ts := by
  intro ts
  match ts with
  | [] => rfl
  | [t] =>
    simp only [List.map, jsJoin, quotedElems, quoteTag, string_data_append]
    rfl
  | t :: t2 :: rest =>
    have ih := jsJoin_quote_data (t2 :: rest)
    simp only [List.map, jsJoin, quotedElems, quoteTag, string_data_append] at *
    simp [ih, List.append_assoc]

lemma unlines_cons : ∀ (l : List Char) (ls : List (List Char)), ls ≠ [] →
    unlines (l :: ls) = l ++ '\n' :: unlines ls := by
  intro l ls h
  cases ls with
  | nil => exact absurd rfl h
  | cons l2 t => rfl

lemma splitOnChar_unlines_last : ∀ (ls : List (List Char)) (last : List Char),
    (∀ l ∈ ls, '\n' ∉ l) →
    splitOnChar '\n' (unlines (ls ++ [last])) = ls ++ splitOnChar '\n' last := by
  intro ls last h
  induction ls with
  | nil => rfl
  | cons l t ih =>
    rw [List.cons_append, unlines_cons l (t ++ [last]) (by simp),
      splitOnChar_append_sep '\n' l _ (h l (List.mem_cons_self l t)),
      ih (fun x hx => h x (List.mem_cons_of_mem l hx))]
    rfl

lemma recordText_data : ∀ (p : PromptInfo) (ts : List String) (body : String),
    (recordText p ts body).data = unlines (headerLines p ts ++ [body.data]) := by
  intro p ts body
  cases ts with
  | nil =>
    simp only [recordText, tagsStr, headerLines, string_data_append]
    simp [unlines, List.append_assoc]
  | cons t rest =>
    have hq := jsJoin_quote_data (t :: rest)
    simp only [recordText, tagsStr, headerLines, string_data_append]
    rw [if_pos (by simp : (t :: rest).length > 0), if_pos (by simp : (t :: rest).length > 0)]
    simp only [string_data_append, hq]
    simp [unlines, List.append_assoc]

lemma jsonStrGo_closes : ∀ (l : List Char) (f : Nat) (rest : List Char),
    l.length + 1 ≤ f →
    (∀ c ∈ l, c ≠ '"' ∧ c ≠ '\\' ∧ 0x20 ≤ c.toNat) →
    jsonStrGo f (l ++ '"' :: rest) = some (l, rest) := by
  intro l
  induction l with
  | nil =>
    intro f rest hf _
    obtain ⟨f2, rfl⟩ : ∃ f2, f = f2 + 1 := ⟨f - 1, by omega⟩
    rfl
  | cons c cs ih =>
    intro f rest hf h
    obtain ⟨f2, rfl⟩ : ∃ f2, f = f2 + 1 := ⟨f - 1, by omega⟩
    have hc := h c (List.mem_cons_self c cs)
    rw [List.cons_append]
    simp only [jsonStrGo]
    rw [if_neg hc.1, if_neg hc.2.1, if_neg (by have := hc.2.2; omega)]
    rw [ih f2 rest (by simp at hf ⊢; omega) (fun x hx => h x (List.mem_cons_of_mem c hx))]
    rfl

lemma jsonStrChars_closes : ∀ (l rest : List Char),
    (∀ c ∈ l, c ≠ '"' ∧ c ≠ '\\' ∧ 0x20 ≤ c.toNat) →
    jsonStrChars (l ++ '"' :: rest) = some (l, rest) := by
  intro l rest h
  unfold jsonStrChars
  exact jsonStrGo_closes l _ rest (by simp) h

lemma jsonVal_str : ∀ (f : Nat) (t : String) (rest : List Char), goodTag t →
    jsonVal (f + 1) ('"' :: t.data ++ '"' :: rest) = some (.str t, rest) := by
  intro f t rest h
  show jsonValCore (jsonVal f) (skipWs ('"' :: t.data ++ '"' :: rest)) = _
  rw [show skipWs ('"' :: t.data ++ '"' :: rest) = '"' :: (t.data ++ '"' :: rest) from rfl]
  show (jsonStrChars (t.data ++ '"' :: rest)).map _ = _
  rw [jsonStrChars_closes t.data rest
    (fun c hc => ⟨(h c hc).1, (h c hc).2.1, (h c hc).2.2.1⟩)]
  rfl

lemma jsonElemsGo_space : ∀ (f1 f2 : Nat) (l : List Char),
    jsonElemsGo (jsonVal (f1 + 1)) (f2 + 1) (' ' :: l) =
      jsonElemsGo (jsonVal (f1 + 1)) (f2 + 1) l :=
  fun _ _ _ => rfl

lemma jsonElemsGo_quoted : ∀ (ts : List String) (f1 f2 : Nat) (rest : List Char),
    ts ≠ [] → (∀ t ∈ ts, goodTag t) → ts.length ≤ f2 + 1 →
    jsonElemsGo (jsonVal (f1 + 1)) (f2 + 1) (quotedElems ts ++ ']' :: rest) =
      some (ts.map .str, rest) := by
  intro ts
  induction ts with
  | nil => intro f1 f2 rest hne; exact absurd rfl hne
  | cons t ts2 ih =>
    intro f1 f2 rest _ hgood _
    have hgt := hgood t (List.mem_cons_self t ts2)
    cases ts2 with
    | nil =>
      rw [show quotedElems [t] ++ ']' :: rest = '"' :: t.data ++ '"' :: ']' :: rest by
        simp [quotedElems]]
      rw [jsonElemsGo, jsonVal_str f1 t (']' :: rest) hgt]
      rfl
    | cons t2 ts3 =>
      rename_i hlen
      have hf2 : 1 ≤ f2 := by
        simp [List.length_cons] at hlen
        omega
      obtain ⟨f3, rfl⟩ : ∃ f3, f2 = f3 + 1 := ⟨f2 - 1, by omega⟩
      rw [show quotedElems (t :: t2 :: ts3) ++ ']' :: rest =
          '"' :: t.data ++ '"' :: ',' :: ' ' :: (quotedElems (t2 :: ts3) ++ ']' :: rest) by
        simp [quotedElems]]
      rw [jsonElemsGo, jsonVal_str f1 t (',' :: ' ' :: (quotedElems (t2 :: ts3) ++ ']' :: rest)) hgt]
      show (jsonElemsGo (jsonVal (f1 + 1)) (f3 + 1) (' ' :: (quotedElems (t2 :: ts3) ++ ']' :: rest))).map _ = _
      rw [jsonElemsGo_space, ih f1 f3 rest (by simp)
        (fun x hx => hgood x (List.mem_cons_of_mem t hx))
        (by simp [List.length_cons] at hlen ⊢; omega)]
      rfl

lemma quotedElems_length_ge : ∀ ts : List String, ts.length ≤ (quotedElems ts).length := by
  intro ts
  match ts with
  | [] => simp [quotedElems]
  | [t] => simp [quotedElems]
  | t :: t2 :: rest =>
    have ih := quotedElems_length_ge (t2 :: rest)
    simp [quotedElems] at ih ⊢
    omega

lemma quotedElems_ge_space : ∀ ts : List String, (∀ t ∈ ts, goodTag t) →
    ∀ c ∈ quotedElems ts, 0x20 ≤ c.toNat := by
  intro ts
  match ts with
  | [] => intro _ c hc; simp [quotedElems] at hc
  | [t] =>
    intro h c hc
    have hq : quotedElems [t] = '"' :: (t.data ++ ['"']) := by simp [quotedElems]
    rw [hq] at hc
    rcases List.mem_cons.mp hc with hc | hc
    · subst hc; decide
    · rcases List.mem_append.mp hc with hc | hc
      · exact (h t (List.mem_cons_self t []) c hc).2.2.1
      · rw [List.mem_singleton.mp hc]; decide
  | t :: t2 :: rest =>
    intro h c hc
    have ih := quotedElems_ge_space (t2 :: rest) (fun x hx => h x (List.mem_cons_of_mem t hx))
    have hq : quotedElems (t :: t2 :: rest) =
        '"' :: (t.data ++ '"' :: ',' :: ' ' :: quotedElems (t2 :: rest)) := by
      simp [quotedElems]
    rw [hq] at hc
    rcases List.mem_cons.mp hc with hc | hc
    · subst hc; decide
    · rcases List.mem_append.mp hc with hc | hc
      · exact (h t (List.mem_cons_self t (t2 :: rest)) c hc).2.2.1
      · rcases List.mem_cons.mp hc with hc | hc
        · subst hc; decide
        · rcases List.mem_cons.mp hc with hc | hc
          · subst hc; decide
          · rcases List.mem_cons.mp hc with hc | hc
            · subst hc; decide
            · exact ih c hc

lemma quotedElems_no_lineterm : ∀ ts : List String, (∀ t ∈ ts, goodTag t) →
    ∀ c ∈ quotedElems ts, jsLineTerminator c = false := by
  intro ts
  match ts with
  | [] => intro _ c hc; simp [quotedElems] at hc
  | [t] =>
    intro h c hc
    have hq : quotedElems [t] = '"' :: (t.data ++ ['"']) := by simp [quotedElems]
    rw [hq] at hc
    rcases List.mem_cons.mp hc with hc | hc
    · subst hc; decide
    · rcases List.mem_append.mp hc with hc | hc
      · exact (h t (List.mem_cons_self t []) c hc).2.2.2
      · rw [List.mem_singleton.mp hc]; decide
  | t :: t2 :: rest =>
    intro h c hc
    have ih := quotedElems_no_lineterm (t2 :: rest) (fun x hx => h x (List.mem_cons_of_mem t hx))
    have hq : quotedElems (t :: t2 :: rest) =
        '"' :: (t.data ++ '"' :: ',' :: ' ' :: quotedElems (t2 :: rest)) := by
      simp [quotedElems]
    rw [hq] at hc
    rcases List.mem_cons.mp hc with hc | hc
    · subst hc; decide
    · rcases List.mem_append.mp hc with hc | hc
      · exact (h t (List.mem_cons_self t (t2 :: rest)) c hc).2.2.2
      · rcases List.mem_cons.mp hc with hc | hc
        · subst hc; decide
        · rcases List.mem_cons.mp hc with hc | hc
          · subst hc; decide
          · rcases List.mem_cons.mp hc with hc | hc
            · subst hc; decide
            · exact ih c hc

lemma jsonParse_tags_array : ∀ ts : List String, ts ≠ [] → (∀ t ∈ ts, goodTag t) →
    jsonParse (String.mk ('[' :: (quotedElems ts ++ [']']))) = some (.arr (ts.map .str)) := by
  intro ts hne hgood
  obtain ⟨t, ts2, rfl⟩ : ∃ t ts2, ts = t :: ts2 := by
    cases ts with
    | nil => exact absurd rfl hne
    | cons a b => exact ⟨a, b, rfl⟩
  obtain ⟨R, hR⟩ : ∃ R, quotedElems (t :: ts2) = '"' :: R := by
    cases ts2 <;> exact ⟨_, rfl⟩
  have harm : ∀ (N : Nat) (R2 : List Char),
      jsonVal (N + 1) ('[' :: ('"' :: (R2 ++ [']']))) =
        (jsonElemsGo (jsonVal N) (('"' :: (R2 ++ [']'])).length + 1) ('"' :: (R2 ++ [']']))).map
          (fun p => (Json.arr p.1, p.2)) := fun _ _ => rfl
  have hEG : jsonElemsGo (jsonVal (('"' :: R).length + 1 + 1)) (('"' :: (R ++ [']'])).length + 1)
      ('"' :: (R ++ [']'])) = some ((t :: ts2).map .str, []) := by
    have h2 : ('"' :: (R ++ [']'])) = quotedElems (t :: ts2) ++ ']' :: ([] : List Char) := by
      rw [hR]
      simp
    rw [h2]
    exact jsonElemsGo_quoted (t :: ts2) (('"' :: R).length + 1)
      ((quotedElems (t :: ts2) ++ [']']).length) [] (by simp) hgood
      (by have hg := quotedElems_length_ge (t :: ts2); simp at hg ⊢; omega)
  have hlen2 : (String.mk ('[' :: (quotedElems (t :: ts2) ++ [']']))).data.length + 1 =
      ((quotedElems (t :: ts2)).length + 1 + 1) + 1 := by simp
  have hval : jsonVal ((String.mk ('[' :: (quotedElems (t :: ts2) ++ [']']))).data.length + 1)
      (String.mk ('[' :: (quotedElems (t :: ts2) ++ [']']))).data =
      some (.arr ((t :: ts2).map .str), []) := by
    rw [show (String.mk ('[' :: (quotedElems (t :: ts2) ++ [']']))).data =
        '[' :: (quotedElems (t :: ts2) ++ [']']) from rfl]
    rw [hlen2, hR]
    rw [show ('"' :: R) ++ [']'] = '"' :: (R ++ [']']) from rfl]
    rw [harm (('"' :: R).length + 1 + 1) R, hEG]
    rfl
  rw [jsonParse, hval]
  rfl

lemma word_prefix_split : ∀ (key l : List Char), (∀ c ∈ key, isWordChar c = true) →
    ((key ++ ':' :: l).takeWhile isWordChar = key ∧
     (key ++ ':' :: l).dropWhile isWordChar = ':' :: l) := by
  intro key l h
  induction key with
  | nil => simp [List.takeWhile, List.dropWhile, isWordChar]
  | cons c cs ih =>
    have hc : isWordChar c = true := h c (List.mem_cons_self c cs)
    have hcs := ih (fun x hx => h x (List.mem_cons_of_mem c hx))
    simp [List.takeWhile, List.dropWhile, hc, hcs.1, hcs.2]

lemma dropWhile_head_nonws : ∀ l : List Char,
    (∀ c, l.head? = some c → jsWhitespace c = false) → l.dropWhile jsWhitespace = l := by
  intro l h
  cases l with
  | nil => rfl
  | cons c cs => simp [List.dropWhile, h c rfl]

lemma string_ne_empty_data : ∀ v : String, v ≠ "" → v.data ≠ [] := by
  intro v hv hd
  apply hv
  cases v with
  | mk data =>
    simp at hd
    rw [hd]

lemma matchKV_keyline : ∀ (key : List Char) (v : String), key ≠ [] →
    (∀ c ∈ key, isWordChar c = true) → goodVal v →
    matchKV (String.mk (key ++ ':' :: ' ' :: v.data)) = some (String.mk key, v) := by
  intro key v hne hword hv
  have hsplit := word_prefix_split key (' ' :: v.data) hword
  have hval : (' ' :: v.data).dropWhile jsWhitespace = v.data := by
    rw [show (' ' :: v.data).dropWhile jsWhitespace = v.data.dropWhile jsWhitespace from rfl]
    exact dropWhile_head_nonws v.data hv.2.2
  obtain ⟨k0, krest, rfl⟩ : ∃ k0 krest, key = k0 :: krest := by
    cases key with
    | nil => exact absurd rfl hne
    | cons a b => exact ⟨a, b, rfl⟩
  simp only [matchKV]
  rw [hsplit.1, hsplit.2]
  show (let value := (' ' :: v.data).dropWhile jsWhitespace
        if value.isEmpty then _ else _) = _
  rw [hval]
  have hdata := string_ne_empty_data v hv.1
  have hie : v.data.isEmpty = false := by
    cases hx : v.data with
    | nil => exact absurd hx hdata
    | cons a b => rfl
  rw [if_neg (by rw [hie]; exact Bool.false_ne_true)]
  have hcr : v.data.any jsLineTerminator = false := by
    cases han : v.data.any jsLineTerminator with
    | false => rfl
    | true =>
      obtain ⟨x, hx, hpx⟩ := List.any_eq_true.mp han
      rw [hv.2.1 x hx] at hpx
      exact absurd hpx (by simp)
  rw [if_neg (by rw [hcr]; exact Bool.false_ne_true)]

lemma dropWhile_append_last : ∀ (p : Char → Bool) (l : List Char) (c : Char), p c = false →
    ∃ l2, (l ++ [c]).dropWhile p = l2 ++ [c] := by
  intro p l c hc
  induction l with
  | nil => exact ⟨[], by simp [List.dropWhile, hc]⟩
  | cons x xs ih =>
    by_cases hx : p x
    · obtain ⟨l2, hl2⟩ := ih
      exact ⟨l2, by simp [List.dropWhile, hx, hl2]⟩
    · exact ⟨x :: xs, by simp [List.dropWhile, hx]⟩

lemma jsTrim_head : ∀ (c : Char) (l : List Char), jsWhitespace c = false →
    ∃ l2, jsTrim (c :: l) = c :: l2 := by
  intro c l hc
  unfold jsTrim
  rw [dropWhile_head_nonws (c :: l)
    (fun x hx => by rw [List.head?_cons, Option.some_inj] at hx; rw [← hx]; exact hc)]
  rw [show (c :: l).reverse = l.reverse ++ [c] by simp]
  obtain ⟨l2, hl2⟩ := dropWhile_append_last jsWhitespace l.reverse c hc
  rw [hl2]
  exact ⟨l2.reverse, by simp⟩

lemma isDelim_cons_false : ∀ (c : Char) (l : List Char), jsWhitespace c = false → c ≠ '-' →
    isDelim (String.mk (c :: l)) = false := by
  intro c l hws hc
  obtain ⟨l2, hl2⟩ := jsTrim_head c l hws
  simp only [isDelim]
  apply decide_eq_false
  intro hx
  have hx2 : jsTrim (c :: l) = ['-', '-', '-'] := hx
  rw [hl2, List.cons.injEq] at hx2
  exact hc hx2.1

lemma takeUntilDelim_append : ∀ (ls : List String) (d : String) (tail : List String),
    (∀ l ∈ ls, isDelim l = false) → isDelim d = true →
    takeUntilDelim (ls ++ d :: tail) = some ls := by
  intro ls d tail h hd
  induction ls with
  | nil => simp [takeUntilDelim, hd]
  | cons l t ih =>
    rw [List.cons_append, takeUntilDelim, if_neg (by rw [h l (List.mem_cons_self l t)]; exact Bool.false_ne_true)]
    rw [ih (fun x hx => h x (List.mem_cons_of_mem l hx))]
    rfl

lemma parsePromptText_structured :
    ∀ (fp content : String) (fm tail : List String),
      (splitOnChar '\n' content.data).map String.mk =
        String.mk ['-', '-', '-'] :: (fm ++ String.mk ['-', '-', '-'] :: tail) →
      (∀ l ∈ fm, isDelim l = false) →
      parsePromptText fp content =
        some { name := metaStr (metaFold fm) "name" "Unknown"
               nspace := metaStr (metaFold fm) "namespace" "Unknown"
               version := metaStr (metaFold fm) "version" "Unknown"
               author := metaStr (metaFold fm) "author" "Unknown"
               description := metaStr (metaFold fm) "description" "No description"
               created := metaStr (metaFold fm) "created" "Unknown"
               tags := metaTags (metaFold fm)
               file := fp } := by
  intro fp content fm tail heq hfm
  simp only [parsePromptText]
  rw [heq]
  rw [afterFirstDelim, if_pos (by decide : isDelim (String.mk ['-', '-', '-']) = true)]
  dsimp only
  rw [takeUntilDelim_append fm _ tail hfm (by decide)]

lemma no_newline_keyline : ∀ (key : List Char) (v : String), '\n' ∉ key → goodVal v →
    '\n' ∉ key ++ ':' :: ' ' :: v.data := by
  intro key v hk hv hm
  rcases List.mem_append.mp hm with hm | hm
  · exact hk hm
  · rcases List.mem_cons.mp hm with hm | hm
    · exact absurd hm (by decide)
    · rcases List.mem_cons.mp hm with hm | hm
      · exact absurd hm (by decide)
      · exact absurd (hv.2.1 '\n' hm) (by decide)

/-- C9.  Round-trip: writing a `PromptInfo` in the documented frontmatter
format (the `newHeader` template of the edit command followed by the body)
and re-parsing the text with the frontmatter parser recovers every metadata
field of the original record, provided the field values survive the line
format (non-empty, no line terminators, no leading whitespace) and the tags
survive the unescaped quoting (no quote, backslash or control characters);
an empty tags list is written as an absent key and re-parsed as the empty
array, the intentional defaulting. -/
theorem record_metadata_roundtrip :
    ∀ (p : PromptInfo) (ts : List String) (body fp : String),
      p.tags = .arr (ts.map .str) →
      goodVal p.name → goodVal p.nspace → goodVal p.version → goodVal p.author →
      goodVal p.description → goodVal p.created → (∀ t ∈ ts, goodTag t) →
      parsePromptText fp (recordText p ts body) =
        some { name := p.name, nspace := p.nspace, version := p.version, author := p.author,
               description := p.description, created := p.created, tags := p.tags, file := fp } := by
  intro p ts body fp htags h1 h2 h3 h4 h5 h6 hts
  have hkv1 : matchKV (String.mk ('n' :: 'a' :: 'm' :: 'e' :: ':' :: ' ' :: p.name.data)) =
      some ("name", p.name) := matchKV_keyline "name".data p.name (by decide) (by decide) h1
  have hkv2 : matchKV (String.mk ('n' :: 'a' :: 'm' :: 'e' :: 's' :: 'p' :: 'a' :: 'c' :: 'e' ::
      ':' :: ' ' :: p.nspace.data)) = some ("namespace", p.nspace) :=
    matchKV_keyline "namespace".data p.nspace (by decide) (by decide) h2
  have hkv3 : matchKV (String.mk ('v' :: 'e' :: 'r' :: 's' :: 'i' :: 'o' :: 'n' ::
      ':' :: ' ' :: p.version.data)) = some ("version", p.version) :=
    matchKV_keyline "version".data p.version (by decide) (by decide) h3
  have hkv4 : matchKV (String.mk ('a' :: 'u' :: 't' :: 'h' :: 'o' :: 'r' ::
      ':' :: ' ' :: p.author.data)) = some ("author", p.author) :=
    matchKV_keyline "author".data p.author (by decide) (by decide) h4
  have hkv5 : matchKV (String.mk ('d' :: 'e' :: 's' :: 'c' :: 'r' :: 'i' :: 'p' :: 't' :: 'i' ::
      'o' :: 'n' :: ':' :: ' ' :: p.description.data)) = some ("description", p.description) :=
    matchKV_keyline "description".data p.description (by decide) (by decide) h5
  have hkv6 : matchKV (String.mk ('c' :: 'r' :: 'e' :: 'a' :: 't' :: 'e' :: 'd' ::
      ':' :: ' ' :: p.created.data)) = some ("created", p.created) :=
    matchKV_keyline "created".data p.created (by decide) (by decide) h6
  cases ts with
  | nil =>
    have hhd : headerLines p [] =
        [['-', '-', '-'],
         "name".data ++ ':' :: ' ' :: p.name.data,
         "namespace".data ++ ':' :: ' ' :: p.nspace.data,
         "version".data ++ ':' :: ' ' :: p.version.data,
         "author".data ++ ':' :: ' ' :: p.author.data,
         "description".data ++ ':' :: ' ' :: p.description.data,
         "created".data ++ ':' :: ' ' :: p.created.data,
         ['-', '-', '-'], []] := by
      simp [headerLines]
    have hnonl : ∀ l ∈ headerLines p [], '\n' ∉ l := by
      rw [hhd]
      simp only [List.forall_mem_cons]
      exact ⟨by decide,
        no_newline_keyline "name".data p.name (by decide) h1,
        no_newline_keyline "namespace".data p.nspace (by decide) h2,
        no_newline_keyline "version".data p.version (by decide) h3,
        no_newline_keyline "author".data p.author (by decide) h4,
        no_newline_keyline "description".data p.description (by decide) h5,
        no_newline_keyline "created".data p.created (by decide) h6,
        by decide, by decide, by simp⟩
    have hlines : (splitOnChar '\n' (recordText p [] body).data).map String.mk =
        String.mk ['-', '-', '-'] ::
          ([String.mk ("name".data ++ ':' :: ' ' :: p.name.data),
            String.mk ("namespace".data ++ ':' :: ' ' :: p.nspace.data),
            String.mk ("version".data ++ ':' :: ' ' :: p.version.data),
            String.mk ("author".data ++ ':' :: ' ' :: p.author.data),
            String.mk ("description".data ++ ':' :: ' ' :: p.description.data),
            String.mk ("created".data ++ ':' :: ' ' :: p.created.data)] ++
           String.mk ['-', '-', '-'] ::
            (String.mk [] :: (splitOnChar '\n' body.data).map String.mk)) := by
      rw [recordText_data, splitOnChar_unlines_last _ _ hnonl, List.map_append, hhd]
      simp
    rw [parsePromptText_structured fp (recordText p [] body) _ _ hlines ?hfm]
    case hfm =>
      simp only [List.forall_mem_cons]
      exact ⟨isDelim_cons_false 'n' _ (by decide) (by decide),
        isDelim_cons_false 'n' _ (by decide) (by decide),
        isDelim_cons_false 'v' _ (by decide) (by decide),
        isDelim_cons_false 'a' _ (by decide) (by decide),
        isDelim_cons_false 'd' _ (by decide) (by decide),
        isDelim_cons_false 'c' _ (by decide) (by decide),
        by simp⟩
    have hmd : metaFold
        [String.mk ("name".data ++ ':' :: ' ' :: p.name.data),
         String.mk ("namespace".data ++ ':' :: ' ' :: p.nspace.data),
         String.mk ("version".data ++ ':' :: ' ' :: p.version.data),
         String.mk ("author".data ++ ':' :: ' ' :: p.author.data),
         String.mk ("description".data ++ ':' :: ' ' :: p.description.data),
         String.mk ("created".data ++ ':' :: ' ' :: p.created.data)] =
        [("name", .str p.name), ("namespace", .str p.nspace), ("version", .str p.version),
         ("author", .str p.author), ("description", .str p.description),
         ("created", .str p.created)] := by
      simp [metaFold, stepMeta, hkv1, hkv2, hkv3, hkv4, hkv5, hkv6, setKey]
    rw [hmd]
    simp [metaStr, metaLookup, metaTags, h1.1, h2.1, h3.1, h4.1, h5.1, h6.1, htags]
  | cons t ts2 =>
    have hgv : goodVal (String.mk ('[' :: (quotedElems (t :: ts2) ++ [']']))) := by
      refine ⟨?_, ?_, ?_⟩
      · intro h
        have := congrArg String.data h
        simp at this
      · intro c hc
        rcases List.mem_cons.mp hc with hc | hc
        · subst hc; decide
        · rcases List.mem_append.mp hc with hc | hc
          · exact quotedElems_no_lineterm (t :: ts2) hts c hc
          · rw [List.mem_singleton.mp hc]; decide
      · intro c hc
        rw [List.head?_cons, Option.some_inj] at hc
        rw [← hc]
        decide
    have hkv7 : matchKV (String.mk ('t' :: 'a' :: 'g' :: 's' :: ':' :: ' ' ::
        '[' :: (quotedElems (t :: ts2) ++ [']']))) =
        some ("tags", String.mk ('[' :: (quotedElems (t :: ts2) ++ [']']))) :=
      matchKV_keyline "tags".data (String.mk ('[' :: (quotedElems (t :: ts2) ++ [']'])))
        (by decide) (by decide) hgv
    have hhd : headerLines p (t :: ts2) =
        [['-', '-', '-'],
         "name".data ++ ':' :: ' ' :: p.name.data,
         "namespace".data ++ ':' :: ' ' :: p.nspace.data,
         "version".data ++ ':' :: ' ' :: p.version.data,
         "author".data ++ ':' :: ' ' :: p.author.data,
         "description".data ++ ':' :: ' ' :: p.description.data,
         "created".data ++ ':' :: ' ' :: p.created.data,
         "tags".data ++ ':' :: ' ' :: '[' :: (quotedElems (t :: ts2) ++ [']']),
         ['-', '-', '-'], []] := by
      simp [headerLines]
    have hnonl : ∀ l ∈ headerLines p (t :: ts2), '\n' ∉ l := by
      rw [hhd]
      simp only [List.forall_mem_cons]
      exact ⟨by decide,
        no_newline_keyline "name".data p.name (by decide) h1,
        no_newline_keyline "namespace".data p.nspace (by decide) h2,
        no_newline_keyline "version".data p.version (by decide) h3,
        no_newline_keyline "author".data p.author (by decide) h4,
        no_newline_keyline "description".data p.description (by decide) h5,
        no_newline_keyline "created".data p.created (by decide) h6,
        no_newline_keyline "tags".data
          (String.mk ('[' :: (quotedElems (t :: ts2) ++ [']']))) (by decide) hgv,
        by decide, by decide, by simp⟩
    have hlines : (splitOnChar '\n' (recordText p (t :: ts2) body).data).map String.mk =
        String.mk ['-', '-', '-'] ::
          ([String.mk ("name".data ++ ':' :: ' ' :: p.name.data),
            String.mk ("namespace".data ++ ':' :: ' ' :: p.nspace.data),
            String.mk ("version".data ++ ':' :: ' ' :: p.version.data),
            String.mk ("author".data ++ ':' :: ' ' :: p.author.data),
            String.mk ("description".data ++ ':' :: ' ' :: p.description.data),
            String.mk ("created".data ++ ':' :: ' ' :: p.created.data),
            String.mk ("tags".data ++ ':' :: ' ' :: '[' :: (quotedElems (t :: ts2) ++ [']']))] ++
           String.mk ['-', '-', '-'] ::
            (String.mk [] :: (splitOnChar '\n' body.data).map String.mk)) := by
      rw [recordText_data, splitOnChar_unlines_last _ _ hnonl, List.map_append, hhd]
      simp
    rw [parsePromptText_structured fp (recordText p (t :: ts2) body) _ _ hlines ?hfm2]
    case hfm2 =>
      simp only [List.forall_mem_cons]
      exact ⟨isDelim_cons_false 'n' _ (by decide) (by decide),
        isDelim_cons_false 'n' _ (by decide) (by decide),
        isDelim_cons_false 'v' _ (by decide) (by decide),
        isDelim_cons_false 'a' _ (by decide) (by decide),
        isDelim_cons_false 'd' _ (by decide) (by decide),
        isDelim_cons_false 'c' _ (by decide) (by decide),
        isDelim_cons_false 't' _ (by decide) (by decide),
        by simp⟩
    have hjp := jsonParse_tags_array (t :: ts2) (by simp) hts
    have hmd : metaFold
        [String.mk ("name".data ++ ':' :: ' ' :: p.name.data),
         String.mk ("namespace".data ++ ':' :: ' ' :: p.nspace.data),
         String.mk ("version".data ++ ':' :: ' ' :: p.version.data),
         String.mk ("author".data ++ ':' :: ' ' :: p.author.data),
         String.mk ("description".data ++ ':' :: ' ' :: p.description.data),
         String.mk ("created".data ++ ':' :: ' ' :: p.created.data),
         String.mk ("tags".data ++ ':' :: ' ' :: '[' :: (quotedElems (t :: ts2) ++ [']']))] =
        [("name", .str p.name), ("namespace", .str p.nspace), ("version", .str p.version),
         ("author", .str p.author), ("description", .str p.description),
         ("created", .str p.created),
         ("tags", .json (.arr ((t :: ts2).map .str)))] := by
      simp [metaFold, stepMeta, hkv1, hkv2, hkv3, hkv4, hkv5, hkv6, hkv7, hjp, setKey]
    rw [hmd]
    simp [metaStr, metaLookup, metaTags, jsTruthy, h1.1, h2.1, h3.1, h4.1, h5.1, h6.1, htags]

lemma goodVal_mk : ∀ s : String, s ≠ "" → (∀ c ∈ s.data, jsLineTerminator c = false) →
    (∀ c ∈ s.data.take 1, jsWhitespace c = false) → goodVal s := by
  intro s a b c
  refine ⟨a, b, fun x hx => ?_⟩
  apply c
  cases hd : s.data with
  | nil => rw [hd] at hx; simp at hx
  | cons y ys =>
    rw [hd] at hx
    rw [List.head?_cons, Option.some_inj] at hx
    rw [← hx]
    simp

/-- Witness for C9: a concrete record with one tag written out and re-parsed
recovers all metadata fields. -/
theorem record_metadata_roundtrip_w :
    parsePromptText "web/foo-1.0.0.md"
      (recordText
        { name := "foo", nspace := "web", version := "1.0.0", author := "ann",
          description := "demo prompt", created := "2024-01-01", tags := .arr [.str "x"],
          file := "old-path" } ["x"] "body text") =
      some { name := "foo", nspace := "web", version := "1.0.0", author := "ann",
             description := "demo prompt", created := "2024-01-01", tags := .arr [.str "x"],
             file := "web/foo-1.0.0.md" } :=
  record_metadata_roundtrip
    { name := "foo", nspace := "web", version := "1.0.0", author := "ann",
      description := "demo prompt", created := "2024-01-01", tags := .arr [.str "x"],
      file := "old-path" } ["x"] "body text" "web/foo-1.0.0.md" rfl
    (goodVal_mk _ (by decide) (by decide) (by decide))
    (goodVal_mk _ (by decide) (by decide) (by decide))
    (goodVal_mk _ (by decide) (by decide) (by decide))
    (goodVal_mk _ (by decide) (by decide) (by decide))
    (goodVal_mk _ (by decide) (by decide) (by decide))
    (goodVal_mk _ (by decide) (by decide) (by decide))
    (by intro t ht; rw [List.mem_singleton.mp ht]; unfold goodTag; decide)

end Promptdock
